import Mathlib

/-!
Verification of the `cleaner` duplicate-file manager (Go) against its
natural-language specification.  The Go sources are shallowly embedded:
pure control flow becomes Lean functions, the in-memory store becomes a
structure with explicit update functions, and filesystem / OS calls
become an explicit environment plus state threaded through the
functions.  Machine integers (`int64` sizes, Unix seconds) are modelled
as `Int`; Go `time.Time` values are modelled by their Unix seconds, with
the possibly-zero `DateShot` modelled as `Option Int` (`none` standing
for Go's zero time, matching `IsZero`).  Go's `strings.HasPrefix(s, p)`
becomes `hasPfx s p`, a character-list prefix test.
-/

/-- hasPfx models Go's `strings.HasPrefix(s, p)` as a prefix test on the
character list of the strings (byte order and character order agree for
the prefix relation). -/
def hasPfx (s p : String) : Bool := p.data.isPrefixOf s.data

/-- FileMetadata mirrors the record type of database.go: absolute path,
size, whole-file content hash, optional image (bitmap) hash, creation and
modification times as Unix seconds, and the optional capture date
(`DateShot`), `none` standing for Go's zero `time.Time`. -/
structure FileMetadata where
  path : String
  size : Int
  fileHash : String
  imageHash : String
  created : Int
  modified : Int
  dateShot : Option Int
deriving DecidableEq, Repr

/-! ## The metadata store (database.go) -/

/-- FileHashes mirrors the store of database.go: the database file path,
the primary index `files` (path to record, Go map modelled as a function)
and the secondary index `hashes` (digest to bucket; Go map of slices
modelled as a function to lists, preserving append order, which matters
for `deleteRecord`). -/
structure FileHashes where
  dbPath : String
  files : String → Option FileMetadata
  hashes : String → List FileMetadata

/-- emptyFH is the freshly initialised store of `readDB` (database.go,
line 144): empty primary and secondary indices. -/
def emptyFH (dbPath : String) : FileHashes :=
  ⟨dbPath, fun _ => none, fun _ => []⟩

/-- addRecord mirrors database.go lines 82-90: store the record in the
primary index under its path; when the size is positive append it to its
content-hash bucket, and additionally to its image-hash bucket when the
image hash is non-empty. -/
def addRecord (fh : FileHashes) (record : FileMetadata) : FileHashes :=
  let files := fun q => if q = record.path then some record else fh.files q
  if 0 < record.size then
    let h1 := fun d =>
      if d = record.fileHash then fh.hashes record.fileHash ++ [record] else fh.hashes d
    let h2 :=
      if 0 < record.imageHash.length then
        fun d => if d = record.imageHash then h1 record.imageHash ++ [record] else h1 d
      else h1
    ⟨fh.dbPath, files, h2⟩
  else ⟨fh.dbPath, files, fh.hashes⟩

/-- deleteRecord mirrors database.go lines 100-107: remove the first
entry of the bucket whose path equals the record's path (matching is by
path, not by identity). -/
def deleteRecord (records : List FileMetadata) (record : FileMetadata) :
    List FileMetadata :=
  match records with
  | [] => []
  | r :: rest => if r.path = record.path then rest else r :: deleteRecord rest record

/-- removeRecord mirrors database.go lines 92-98: drop the path from the
primary index, then delete (by path) from the content-hash bucket and,
when the image hash is non-empty, from the image-hash bucket. -/
def removeRecord (fh : FileHashes) (record : FileMetadata) : FileHashes :=
  let files := fun q => if q = record.path then none else fh.files q
  let h1 := fun d =>
    if d = record.fileHash then deleteRecord (fh.hashes record.fileHash) record
    else fh.hashes d
  let h2 :=
    if 0 < record.imageHash.length then
      fun d => if d = record.imageHash then deleteRecord (h1 record.imageHash) record
               else h1 d
    else h1
  ⟨fh.dbPath, files, h2⟩

/-- StoreOp is one primitive mutation of the store: a call to `addRecord`
or to `removeRecord`. -/
inductive StoreOp
  | add (record : FileMetadata)
  | remove (record : FileMetadata)

/-- applyOps runs a sequence of store mutations from left to right. -/
def applyOps (fh : FileHashes) (ops : List StoreOp) : FileHashes :=
  ops.foldl
    (fun fh op =>
      match op with
      | .add r => addRecord fh r
      | .remove r => removeRecord fh r)
    fh

/-! ## Master selection (duplicates.go, pickMaster) -/

/-- pickStep is the body of the selection loop of `pickMaster`
(duplicates.go, lines 12-52): given the currently selected record and the
next candidate, it returns the new selection, following the else-if chain
of the Go source literally. -/
def pickStep (duplicatePfx masterPfx : String) (selected candidate : FileMetadata) :
    FileMetadata :=
  if hasPfx candidate.path masterPfx ≠ hasPfx selected.path masterPfx then
    -- Pick master inside masters folder
    if ¬ hasPfx selected.path masterPfx then candidate else selected
  else if hasPfx candidate.path duplicatePfx ≠ hasPfx selected.path duplicatePfx then
    -- Pick master outside of searched folder
    if hasPfx selected.path duplicatePfx then candidate else selected
  else if candidate.size ≠ selected.size then
    -- Picking larger files since they most likely have more metadata with same image data
    if candidate.size > selected.size then candidate else selected
  else if candidate.dateShot.isSome ∧
      (selected.dateShot.isNone ∨ candidate.dateShot.getD 0 ≠ selected.dateShot.getD 0) then
    -- Pick earliest shooting date
    if selected.dateShot.isNone ∨ candidate.dateShot.getD 0 < selected.dateShot.getD 0 then
      candidate
    else selected
  else if candidate.modified ≠ selected.modified then
    -- For copied files modification date would be more accurate than creation date
    if candidate.modified < selected.modified then candidate else selected
  else if candidate.created ≠ selected.created then
    -- Pick file that is older
    if candidate.created < selected.created then candidate else selected
  else selected

/-- pickMaster folds `pickStep` over the candidate group in a given
iteration order (the Go source iterates a map in unspecified order; the
list argument fixes one order).  The first candidate becomes the initial
selection, exactly as the `selected == nil` case does in the source. -/
def pickMaster (duplicatePfx masterPfx : String) (candidates : List FileMetadata) :
    Option FileMetadata :=
  candidates.foldl
    (fun acc candidate =>
      match acc with
      | none => some candidate
      | some selected => some (pickStep duplicatePfx masterPfx selected candidate))
    none

/-! ## Classification of a duplicate group (duplicates.go, FindDuplicates) -/

/-- DupClass names the five classification outcomes of the report loop of
`FindDuplicates` (duplicates.go, lines 152-177). -/
inductive DupClass
  | inMasterDir
  | outsideDupDir
  | masterOutsideMasterDir
  | imageMatch
  | strictMatch
deriving DecidableEq, Repr

/-- classifyDup mirrors the if-chain of the report loop of
`FindDuplicates` (duplicates.go, lines 161-176) for one group member. -/
def classifyDup (duplicatePfx masterPfx : String) (master dup : FileMetadata) :
    DupClass :=
  if 0 < masterPfx.length ∧ hasPfx dup.path masterPfx ∧ masterPfx ≠ duplicatePfx then
    .inMasterDir
  else if 0 < duplicatePfx.length ∧ ¬ hasPfx dup.path duplicatePfx then
    .outsideDupDir
  else if 0 < masterPfx.length ∧ ¬ hasPfx master.path masterPfx then
    .masterOutsideMasterDir
  else if master.fileHash = dup.fileHash then .strictMatch
  else .imageMatch

/-- processGroup mirrors the loop of `FindDuplicates` over one duplicate
group (duplicates.go, lines 151-177): skip the master itself, classify
every other member, and return (in loop order) the actionable result list
`resultDups` plus the list of paths added to `visited` inside the loop.
A strict match is appended to the result and marked visited; an image
match is appended to the result without being marked visited; the three
flagged classes are only reported. -/
def processGroup (duplicatePfx masterPfx : String) (master : FileMetadata)
    (dups : List FileMetadata) : List FileMetadata × List String :=
  dups.foldl
    (fun acc dup =>
      if dup = master then acc
      else
        match classifyDup duplicatePfx masterPfx master dup with
        | .strictMatch => (acc.1 ++ [dup], acc.2 ++ [dup.path])
        | .imageMatch => (acc.1 ++ [dup], acc.2)
        | _ => acc)
    ([], [])

/-! ## The scan walk (scanner.go, makeWalkFunc / checkFileDidNotChange) -/

/-- FileInfo models the part of `os.FileInfo` the scanner reads: the
directory flag, the size, the creation time obtained through
`getCreationTime`, and the modification time, times as Unix seconds. -/
structure FileInfo where
  isDir : Bool
  size : Int
  created : Int
  modTime : Int
deriving DecidableEq, Repr

/-- checkFileDidNotChange mirrors scanner.go lines 85-87: a record is
fresh iff the stat is not a directory, size, creation time and
modification time all match, and a content hash is recorded. -/
def checkFileDidNotChange (f : FileInfo) (record : FileMetadata) : Bool :=
  !f.isDir && f.size == record.size && f.created == record.created &&
    f.modTime == record.modified && record.fileHash.length != 0

/-- ScanJob is the unit of work `makeWalkFunc` sends to the fingerprint
workers (scanner.go, type scanInfo). -/
structure ScanJob where
  path : String
  f : FileInfo
  existingRecord : Option FileMetadata
deriving DecidableEq, Repr

/-- walkStep mirrors the body of `makeWalkFunc` (scanner.go, lines
41-61) for one visited path: directories and nil stats are ignored; a
fresh existing record short-circuits with no job; a stale existing record
is removed before the path is enqueued; an unknown path is enqueued.  The
returned list holds the jobs sent to the fingerprint channel. -/
def walkStep (fh : FileHashes) (path : String) (f : Option FileInfo) :
    FileHashes × List ScanJob :=
  match f with
  | none => (fh, [])
  | some fi =>
    if fi.isDir then (fh, [])
    else
      match fh.files path with
      | some record =>
        if checkFileDidNotChange fi record then (fh, [])
        else (removeRecord fh record, [⟨path, fi, some record⟩])
      | none => (fh, [⟨path, fi, none⟩])

/-- walkAll folds `walkStep` over the visited files of a walk, keeping
the store state and accumulating the enqueued jobs in order. -/
def walkAll (fh : FileHashes) (entries : List (String × Option FileInfo)) :
    FileHashes × List ScanJob :=
  entries.foldl
    (fun acc e =>
      let r := walkStep acc.1 e.1 e.2
      (r.1, acc.2 ++ r.2))
    (fh, [])

/-! ## Loading the database (scanner.go readDBRecord, database.go readDB) -/

/-- StatRes models the outcome of `os.Stat`: a live stat, a
does-not-exist error, or any other error. -/
inductive StatRes
  | found (f : FileInfo)
  | missing
  | fsErr
deriving DecidableEq, Repr

/-- ScanEnv packages the external capabilities the load and scan paths
consume: `os.Stat`, the mandatory content hasher (`none` = I/O error),
the optional image hasher (empty string when the file is not an image),
the optional media-date extractor, and `filepath.Abs`. -/
structure ScanEnv where
  stat : String → StatRes
  fileHashOf : String → Option String
  imageHashOf : String → String
  mediaDateOf : String → Option Int
  absPath : String → Option String

/-- parseFileMetadata mirrors scanner.go lines 63-82: fail when the
content hash fails, otherwise build a fresh record from the live stat and
the optional image hash and media date (their failures are swallowed and
leave the fields absent). -/
def parseFileMetadata (env : ScanEnv) (path : String) (f : FileInfo) :
    Option FileMetadata :=
  match env.fileHashOf path with
  | none => none
  | some h =>
    some ⟨path, f.size, h, env.imageHashOf path, f.created, f.modTime, env.mediaDateOf path⟩

/-- Modelled from the spec: `replaceLatestRecord` is called by scanner.go
but its definition is not among the provided sources.  Spec section 4.1,
`upsert(record)`: "replaces any existing record for the same path in all
indices (see invariant 3), then inserts the new record; returns whether
an existing record was replaced (used to decide whether later compaction
is warranted)".  (This also matches `defaultAdd` in database.go.) -/
def replaceLatestRecord (fh : FileHashes) (record : FileMetadata) :
    Bool × FileHashes :=
  match fh.files record.path with
  | some old => (true, addRecord (removeRecord fh old) record)
  | none => (false, addRecord fh record)

/-- Modelled from the spec: `updateToAbsolutePath` is referenced by
scanner.go (`ReadDB`) but its definition is not among the provided
sources.  Spec section 4.1 describes load-time path handling as absolute
normalisation whose "updated" outcome feeds the dirty flag; this matches
`defaultPath` in database.go: make the path absolute, report whether it
changed, propagate an error of the absolute-path computation. -/
def updateToAbsolutePath (env : ScanEnv) (record : FileMetadata) :
    Option (Bool × FileMetadata) :=
  match env.absPath record.path with
  | none => none
  | some np =>
    if np = record.path then some (false, record)
    else some (true, { record with path := np })

/-- addFileToDB models the append primitive of database.go lines 30-40 as
the list of records appended to the log: nothing when the self-write
guard fires (the record's path equals the database path, an error the
load path ignores), otherwise the single record. -/
def addFileToDB (fh : FileHashes) (record : FileMetadata) : List FileMetadata :=
  if fh.dbPath = record.path then [] else [record]

/-- LoadRes is the outcome of loading one logged record: the dirty flag
returned to `readDB`, the new store, and the records appended to the log,
or a fatal error. -/
inductive LoadRes
  | ok (dirty : Bool) (fh : FileHashes) (appended : List FileMetadata)
  | fail

/-- readDBRecordStale is the tail of `readDBRecord` (scanner.go, lines
137-150) reached when no already-loaded fresh record for the path exists:
a record in sync with the live file is restored as-is through
`replaceLatestRecord`; otherwise the file is re-fingerprinted and the
refreshed record both replaces the in-memory record and is appended. -/
def readDBRecordStale (env : ScanEnv) (fh : FileHashes) (record : FileMetadata)
    (f : FileInfo) : LoadRes :=
  if checkFileDidNotChange f record then
    let r := replaceLatestRecord fh record
    .ok r.1 r.2 []
  else
    match parseFileMetadata env record.path f with
    | none => .fail
    | some newRec =>
      let r := replaceLatestRecord fh newRec
      .ok true r.2 (addFileToDB r.2 newRec)

/-- readDBRecord mirrors scanner.go lines 124-150: a vanished file is
dropped but still reports dirty; a stat error is fatal; when an
already-loaded record for the path is fresh against the live file the
logged record is skipped, reporting dirty; otherwise the stale tail
runs. -/
def readDBRecord (env : ScanEnv) (fh : FileHashes) (record : FileMetadata) :
    LoadRes :=
  match env.stat record.path with
  | .missing => .ok true fh []
  | .fsErr => .fail
  | .found f =>
    match fh.files record.path with
    | some existing =>
      if checkFileDidNotChange f existing then .ok true fh []
      else readDBRecordStale env fh record f
    | none => readDBRecordStale env fh record f

/-- ReadDBRes is the outcome of a full load: the store, the accumulated
dirty flag (`needsCompacting`), and the records appended to the log
during the load, or a fatal error. -/
inductive ReadDBRes
  | ok (fh : FileHashes) (needsCompacting : Bool) (appended : List FileMetadata)
  | fail

/-- readDBLoop mirrors the scan loop of `readDB` (database.go, lines
152-171) instantiated with the scanner's `readDBRecord` and
`updateToAbsolutePath` (scanner.go, `ReadDB`): records with empty paths
are ignored; for the rest the path is normalised, the record is loaded,
and the dirty flag accumulates `refreshed || updated`. -/
def readDBLoop (env : ScanEnv) (fh : FileHashes) (needsCompacting : Bool)
    (appended : List FileMetadata) : List FileMetadata → ReadDBRes
  | [] => .ok fh needsCompacting appended
  | record :: rest =>
    if record.path.length ≠ 0 then
      match updateToAbsolutePath env record with
      | none => .fail
      | some (updated, record1) =>
        match readDBRecord env fh record1 with
        | .fail => .fail
        | .ok refreshed fh1 app =>
          readDBLoop env fh1 (needsCompacting || refreshed || updated)
            (appended ++ app) rest
    else readDBLoop env fh needsCompacting appended rest

/-- readDB runs the load loop from the fresh store of database.go line
144 over the parsed log records in file order. -/
def readDB (env : ScanEnv) (dbPath : String) (records : List FileMetadata) :
    ReadDBRes :=
  readDBLoop env (emptyFH dbPath) false [] records

/-! ## Moving duplicates (duplicates.go, MoveDuplicates) -/

/-- FS models the filesystem as what `os.Stat` answers per path. -/
def FS := String → StatRes

/-- updateFS sets the stat answer of one path. -/
def updateFS (fs : FS) (p : String) (v : StatRes) : FS :=
  fun q => if q = p then v else fs q

/-- MkdirRes models the outcome of `os.MkdirAll`: success, an
already-exists error (which the source tolerates), or any other error. -/
inductive MkdirRes
  | ok
  | alreadyExists
  | fsErr
deriving DecidableEq, Repr

/-- MoveErr names the failure exits of `MoveDuplicates`. -/
inductive MoveErr
  | absErr
  | relErr
  | statErr
  | conflict
  | mkdirErr
  | renameErr
deriving DecidableEq, Repr

/-- MoveEnv packages the pure path helpers and fault injections the move
loop consumes: `filepath.Abs`, `filepath.Rel`, `filepath.VolumeName`,
`filepath.Clean`, `filepath.Dir`, the separator, the `os.MkdirAll`
outcome per directory, and which renames fail. -/
structure MoveEnv where
  absPath : String → Option String
  relPath : String → String → Option String
  volumeName : String → String
  clean : String → String
  dirOf : String → String
  sep : String
  mkdirRes : String → MkdirRes
  renameFails : String → String → Bool

/-- dirStat is the stat answer of a freshly created directory. -/
def dirStat : StatRes := .found ⟨true, 0, 0, 0⟩

/-- computeNewPath mirrors the destination computation of
`MoveDuplicates` (duplicates.go, lines 197-216): the record's path
relative to the (absolutised) strip base when one is given, else relative
to its volume root; the destination directory and destination path under
the cleaned move root.  `none` models the error returns of
`filepath.Abs` / `filepath.Rel`. -/
def computeNewPath (env : MoveEnv) (moveTo removePfx : String) (p : FileMetadata) :
    Option (String × String) :=
  let relComputed :=
    if removePfx.length ≠ 0 then
      match env.absPath removePfx with
      | none => none
      | some rp => env.relPath rp p.path
    else env.relPath (env.volumeName p.path ++ env.sep) p.path
  match relComputed with
  | none => none
  | some relP =>
    let relDir := env.dirOf relP
    let newDir := if relDir ≠ "." then env.clean moveTo ++ env.sep ++ relDir else moveTo
    some (newDir, env.clean moveTo ++ env.sep ++ relP)

/-- StepRes is the outcome of processing one duplicate record in the move
loop: continue with possibly updated state (and whether this record was
actually moved), or abort the whole operation with an error, leaving the
state reached so far. -/
inductive StepRes
  | cont (fs : FS) (fh : FileHashes) (movedThis : Bool)
  | fail (fs : FS) (fh : FileHashes) (e : MoveErr)

/-- stepMove mirrors the per-record body of the move loop of
`MoveDuplicates` (duplicates.go, lines 190-243): compute the destination;
skip a vanished source with a warning; fail on a source stat error; fail
with the conflict error when the destination stat is anything but
does-not-exist; under a dry run continue without touching anything;
otherwise create the destination directory (tolerating already-exists),
rename, and remove the record from the store. -/
def stepMove (env : MoveEnv) (moveTo removePfx : String) (applyMove : Bool)
    (fs : FS) (fh : FileHashes) (p : FileMetadata) : StepRes :=
  match computeNewPath env moveTo removePfx p with
  | none => .fail fs fh .relErr
  | some (newDir, newPath) =>
    match fs p.path with
    | .missing => .cont fs fh false
    | .fsErr => .fail fs fh .statErr
    | .found fi =>
      match fs newPath with
      | .found _ => .fail fs fh .conflict
      | .fsErr => .fail fs fh .conflict
      | .missing =>
        if applyMove = false then .cont fs fh false
        else
          match env.mkdirRes newDir with
          | .fsErr => .fail fs fh .mkdirErr
          | res =>
            let fs1 := if res = .ok then updateFS fs newDir dirStat else fs
            if env.renameFails p.path newPath then .fail fs1 fh .renameErr
            else
              .cont (updateFS (updateFS fs1 p.path .missing) newPath (.found fi))
                (removeRecord fh p) true

/-- MoveOut is the overall outcome of `MoveDuplicates`: the returned
boolean (`moved`), the final filesystem and store states, and the
returned error if any. -/
structure MoveOut where
  moved : Bool
  fs : FS
  fh : FileHashes
  errRes : Option MoveErr

/-- runMove folds `stepMove` over the flattened duplicate records,
mirroring the nested loops of `MoveDuplicates`: a step failure returns
immediately with the `moved` flag accumulated so far; a successful step
ors its own moved flag into the accumulator. -/
def runMove (env : MoveEnv) (moveTo removePfx : String) (applyMove : Bool) :
    FS → FileHashes → Bool → List FileMetadata → MoveOut
  | fs, fh, moved, [] => ⟨moved, fs, fh, none⟩
  | fs, fh, moved, p :: rest =>
    match stepMove env moveTo removePfx applyMove fs fh p with
    | .fail fs1 fh1 e => ⟨moved, fs1, fh1, some e⟩
    | .cont fs1 fh1 m => runMove env moveTo removePfx applyMove fs1 fh1 (moved || m) rest

/-- MoveDuplicates mirrors duplicates.go lines 188-245: absolutise the
destination root (an error returns immediately with `moved = false`),
then run the move loop over every duplicate list of the result mapping in
order. -/
def MoveDuplicates (env : MoveEnv) (moveTo removePfx : String)
    (dups : List (List FileMetadata)) (fs : FS) (fh : FileHashes)
    (applyMove : Bool) : MoveOut :=
  match env.absPath moveTo with
  | none => ⟨false, fs, fh, some .absErr⟩
  | some mt => runMove env mt removePfx applyMove fs fh false dups.flatten

/-! ## Helper lemmas -/

lemma pickStep_cases (dp mp : String) (s c : FileMetadata) :
    pickStep dp mp s c = s ∨ pickStep dp mp s c = c := by
  unfold pickStep
  split_ifs <;> simp

lemma pickFold_mem (dp mp : String) :
    ∀ (l : List FileMetadata) (s : FileMetadata),
      ∃ m,
        l.foldl
            (fun acc candidate =>
              match acc with
              | none => some candidate
              | some selected => some (pickStep dp mp selected candidate))
            (some s) = some m ∧ (m = s ∨ m ∈ l) := by
  intro l
  induction l with
  | nil => exact fun s => ⟨s, rfl, .inl rfl⟩
  | cons x xs ih =>
    intro s
    obtain ⟨m, hm, hmem⟩ := ih (pickStep dp mp s x)
    refine ⟨m, hm, ?_⟩
    rcases hmem with h | h
    · rcases pickStep_cases dp mp s x with hs | hc
      · exact .inl (h.trans hs)
      · exact .inr (by simp [h.trans hc])
    · exact .inr (List.mem_cons_of_mem _ h)

/-- C9: for every non-empty candidate list, `pickMaster` returns one of
the candidates (never a null result). -/
theorem pickMaster_mem_of_ne_nil (dp mp : String) (l : List FileMetadata)
    (h : l ≠ []) : ∃ m, pickMaster dp mp l = some m ∧ m ∈ l := by
  match l with
  | [] => exact absurd rfl h
  | x :: xs =>
    obtain ⟨m, hm, hmem⟩ := pickFold_mem dp mp xs x
    refine ⟨m, ?_, ?_⟩
    · simpa [pickMaster] using hm
    · rcases hmem with h | h
      · simp [h]
      · exact List.mem_cons_of_mem _ h

def sampleRec : FileMetadata := ⟨"/a/x.jpg", 100, "h1", "", 5, 10, some 50⟩

/-- Witness for C9 at a concrete one-element group. -/
theorem pickMaster_mem_of_ne_nil_witness :
    ∃ m, pickMaster "" "" [sampleRec] = some m ∧ m ∈ [sampleRec] :=
  pickMaster_mem_of_ne_nil "" "" [sampleRec] (by decide)

/-! ## C6: freshness idempotence of the walk -/

/-- freshEntry states that a walk entry is one the second run of an
unchanged scan visits: either no stat / a directory, or a file whose
stored record matches size, creation time and modification time and
already has a content hash. -/
def freshEntry (fh : FileHashes) (e : String × Option FileInfo) : Prop :=
  ∀ fi, e.2 = some fi → fi.isDir = false →
    ∃ record, fh.files e.1 = some record ∧ checkFileDidNotChange fi record = true

lemma walkStep_skip (fh : FileHashes) (path : String) (f : Option FileInfo)
    (h : freshEntry fh (path, f)) : walkStep fh path f = (fh, []) := by
  match f with
  | none => rfl
  | some fi =>
    by_cases hd : fi.isDir
    · simp [walkStep, hd]
    · obtain ⟨record, hrec, hfresh⟩ := h fi rfl (by simpa using hd)
      simp [walkStep, hd, hrec, hfresh]

/-- C6: a file whose stored record matches size, creation time and
modification time and has a recorded content hash is skipped by the walk
with no job enqueued and no store mutation; consequently a walk in which
every visited entry is fresh leaves the store untouched and enqueues no
jobs at all — re-scanning an unchanged tree appends nothing. -/
theorem scan_unchanged_skips :
    (∀ (fh : FileHashes) (path : String) (fi : FileInfo) (record : FileMetadata),
      fh.files path = some record → checkFileDidNotChange fi record = true →
      walkStep fh path (some fi) = (fh, [])) ∧
    (∀ (fh : FileHashes) (entries : List (String × Option FileInfo)),
      (∀ e ∈ entries, freshEntry fh e) → walkAll fh entries = (fh, [])) := by
  constructor
  · intro fh path fi record hrec hfresh
    have hd : fi.isDir = false := by
      have := hfresh
      unfold checkFileDidNotChange at this
      rcases h : fi.isDir
      · rfl
      · rw [h] at this; simp at this
    simp [walkStep, hd, hrec, hfresh]
  · intro fh entries hall
    have go : ∀ (es : List (String × Option FileInfo)) (acc : List ScanJob),
        (∀ e ∈ es, freshEntry fh e) →
        es.foldl
            (fun acc e =>
              let r := walkStep acc.1 e.1 e.2
              (r.1, acc.2 ++ r.2))
            (fh, acc) = (fh, acc) := by
      intro es
      induction es with
      | nil => intro acc _; rfl
      | cons e rest ih =>
        intro acc hes
        have h1 : walkStep fh e.1 e.2 = (fh, []) :=
          walkStep_skip fh e.1 e.2 (hes e (by simp))
        simp only [List.foldl, h1, List.append_nil]
        exact ih acc fun e' he' => hes e' (by simp [he'])
    simpa [walkAll] using go entries [] hall

def sampleInfo : FileInfo := ⟨false, 100, 5, 10⟩

def sampleStore : FileHashes :=
  ⟨"db", fun q => if q = "/a/x.jpg" then some sampleRec else none,
    fun d => if d = "h1" then [sampleRec] else []⟩

/-- Witness for C6: the concrete fresh file is skipped with no job and no
store change. -/
theorem scan_unchanged_skips_witness :
    walkStep sampleStore "/a/x.jpg" (some sampleInfo) = (sampleStore, []) :=
  scan_unchanged_skips.1 sampleStore "/a/x.jpg" sampleInfo sampleRec
    (by simp [sampleStore]) (by decide)

/-! ## C7: dry run is a frame (no filesystem or store effect) -/

lemma stepMove_dry (env : MoveEnv) (mt rp : String) (fs : FS) (fh : FileHashes)
    (p : FileMetadata) :
    stepMove env mt rp false fs fh p = .cont fs fh false ∨
    ∃ e, stepMove env mt rp false fs fh p = .fail fs fh e := by
  cases hc : computeNewPath env mt rp p with
  | none => exact .inr ⟨.relErr, by simp [stepMove, hc]⟩
  | some q =>
    obtain ⟨newDir, newPath⟩ := q
    cases hs : fs p.path with
    | missing => exact .inl (by simp [stepMove, hc, hs])
    | fsErr => exact .inr ⟨.statErr, by simp [stepMove, hc, hs]⟩
    | found fi =>
      cases hd : fs newPath with
      | found f => exact .inr ⟨.conflict, by simp [stepMove, hc, hs, hd]⟩
      | fsErr => exact .inr ⟨.conflict, by simp [stepMove, hc, hs, hd]⟩
      | missing => exact .inl (by simp [stepMove, hc, hs, hd])

lemma runMove_dry (env : MoveEnv) (mt rp : String) :
    ∀ (l : List FileMetadata) (fs : FS) (fh : FileHashes) (m : Bool),
      (runMove env mt rp false fs fh m l).moved = m ∧
      (runMove env mt rp false fs fh m l).fs = fs ∧
      (runMove env mt rp false fs fh m l).fh = fh := by
  intro l
  induction l with
  | nil => exact fun fs fh m => ⟨rfl, rfl, rfl⟩
  | cons p rest ih =>
    intro fs fh m
    rcases stepMove_dry env mt rp fs fh p with h | ⟨e, h⟩
    · have heq : runMove env mt rp false fs fh m (p :: rest) =
          runMove env mt rp false fs fh (m || false) rest := by
        simp [runMove, h]
      rw [heq, Bool.or_false]
      exact ih fs fh m
    · have heq : runMove env mt rp false fs fh m (p :: rest) =
          ⟨m, fs, fh, some e⟩ := by
        simp [runMove, h]
      rw [heq]
      exact ⟨rfl, rfl, rfl⟩

/-- C7: with `applyMove = false`, `MoveDuplicates` changes neither the
filesystem nor the store, and reports that nothing was moved, for every
result mapping and every starting state (this holds whether the dry run
ends normally or with an error such as a conflict report). -/
theorem moveDuplicates_dry_run_frame (env : MoveEnv) (moveTo removePfx : String)
    (dups : List (List FileMetadata)) (fs : FS) (fh : FileHashes) :
    (MoveDuplicates env moveTo removePfx dups fs fh false).moved = false ∧
    (MoveDuplicates env moveTo removePfx dups fs fh false).fs = fs ∧
    (MoveDuplicates env moveTo removePfx dups fs fh false).fh = fh := by
  unfold MoveDuplicates
  match env.absPath moveTo with
  | none => exact ⟨rfl, rfl, rfl⟩
  | some mt => exact runMove_dry env mt removePfx dups.flatten fs fh false

/-! ## C2: destination conflicts abort, vanished sources are skipped -/

/-- C2: for a record whose destination computation succeeds, (a) a source
that no longer exists makes the step a warning-only skip — no error, no
filesystem or store change — and the loop continues with the remaining
records; (b) a source that exists together with a destination whose stat
is anything but does-not-exist makes the whole operation return the
conflict error immediately, with the filesystem and the store exactly as
before — the source is neither deleted nor overwritten. -/
theorem moveDuplicates_conflict_and_skip (env : MoveEnv) (mt rp : String)
    (applyMove : Bool) (fs : FS) (fh : FileHashes) (p : FileMetadata)
    (newDir newPath : String) (m : Bool) (rest : List FileMetadata)
    (hc : computeNewPath env mt rp p = some (newDir, newPath)) :
    (fs p.path = .missing →
      stepMove env mt rp applyMove fs fh p = .cont fs fh false ∧
      runMove env mt rp applyMove fs fh m (p :: rest) =
        runMove env mt rp applyMove fs fh m rest) ∧
    (∀ fi, fs p.path = .found fi → fs newPath ≠ .missing →
      runMove env mt rp applyMove fs fh m (p :: rest) = ⟨m, fs, fh, some .conflict⟩) := by
  constructor
  · intro hs
    have hstep : stepMove env mt rp applyMove fs fh p = .cont fs fh false := by
      simp [stepMove, hc, hs]
    exact ⟨hstep, by simp [runMove, hstep]⟩
  · intro fi hs hd
    have hstep : stepMove env mt rp applyMove fs fh p = .fail fs fh .conflict := by
      cases hnew : fs newPath with
      | missing => exact absurd hnew hd
      | found f => simp [stepMove, hc, hs, hnew]
      | fsErr => simp [stepMove, hc, hs, hnew]
    simp [runMove, hstep]

/-- sampleMoveEnv is a concrete move environment: identity-like path
helpers, all directory creations succeed, no rename faults. -/
def sampleMoveEnv : MoveEnv :=
  ⟨fun s => some s, fun _ t => some t, fun _ => "", fun s => s, fun _ => ".", "/",
    fun _ => .ok, fun _ _ => false⟩

def sampleFsBoth : FS := fun q =>
  if q = "/a/x.jpg" then .found ⟨false, 100, 5, 10⟩
  else if q = "/dst//a/x.jpg" then .found ⟨false, 7, 1, 2⟩
  else .missing

def sampleFsGone : FS := fun _ => .missing

/-- Witness for C2 at concrete states: a vanished source is skipped with
no error, and an existing source with an occupied destination returns the
conflict error leaving both states untouched. -/
theorem moveDuplicates_conflict_and_skip_witness :
    stepMove sampleMoveEnv "/dst" "" true sampleFsGone (emptyFH "db") sampleRec =
      .cont sampleFsGone (emptyFH "db") false ∧
    runMove sampleMoveEnv "/dst" "" true sampleFsBoth (emptyFH "db") false [sampleRec] =
      ⟨false, sampleFsBoth, emptyFH "db", some .conflict⟩ := by
  constructor
  · exact ((moveDuplicates_conflict_and_skip sampleMoveEnv "/dst" "" true
      sampleFsGone (emptyFH "db") sampleRec "/dst" "/dst//a/x.jpg" false []
      (by decide)).1 (by decide)).1
  · exact (moveDuplicates_conflict_and_skip sampleMoveEnv "/dst" "" true
      sampleFsBoth (emptyFH "db") sampleRec "/dst" "/dst//a/x.jpg" false []
      (by decide)).2 ⟨false, 100, 5, 10⟩ (by decide) (by decide)

/-! ## C1: image matches and the actionable result -/

lemma processGroup_go (dp mp : String) (master : FileMetadata) :
    ∀ (dups : List FileMetadata) (acc : List FileMetadata × List String),
      dups.foldl
          (fun acc dup =>
            if dup = master then acc
            else
              match classifyDup dp mp master dup with
              | .strictMatch => (acc.1 ++ [dup], acc.2 ++ [dup.path])
              | .imageMatch => (acc.1 ++ [dup], acc.2)
              | _ => acc)
          acc =
        (acc.1 ++
          (dups.filter fun d => decide (d ≠ master) &&
            (classifyDup dp mp master d == DupClass.strictMatch ||
             classifyDup dp mp master d == DupClass.imageMatch)),
         acc.2 ++
          ((dups.filter fun d => decide (d ≠ master) &&
              classifyDup dp mp master d == DupClass.strictMatch).map
            fun d => d.path)) := by
  intro dups
  induction dups with
  | nil => intro acc; simp
  | cons d rest ih =>
    intro acc
    by_cases hdm : d = master
    · simp [hdm, ih]
    · cases hcl : classifyDup dp mp master d <;>
        simp [hdm, hcl, ih, List.append_assoc]

lemma processGroup_eq (dp mp : String) (master : FileMetadata)
    (dups : List FileMetadata) :
    processGroup dp mp master dups =
      (dups.filter fun d => decide (d ≠ master) &&
        (classifyDup dp mp master d == DupClass.strictMatch ||
         classifyDup dp mp master d == DupClass.imageMatch),
       (dups.filter fun d => decide (d ≠ master) &&
          classifyDup dp mp master d == DupClass.strictMatch).map
        fun d => d.path) := by
  simpa [processGroup] using processGroup_go dp mp master dups ([], [])

def masterRecX : FileMetadata := ⟨"/m/a.jpg", 100, "h1", "img", 0, 0, none⟩

def imgDupX : FileMetadata := ⟨"/m/b.jpg", 90, "h2", "img", 0, 0, none⟩

def strictDupX : FileMetadata := ⟨"/m/c.jpg", 100, "h1", "", 0, 0, none⟩

/-- Counterexample to C1 as stated: a group member whose content hash
differs from the chosen master's (a bitmap-hash-only match) is classified
as an image match and is nevertheless placed in the actionable result
list returned to the caller (duplicates.go appends it at line 175), so it
would be passed to the relocation step. -/
theorem findDuplicates_imageMatch_in_result :
    masterRecX.fileHash ≠ imgDupX.fileHash ∧
    classifyDup "" "" masterRecX imgDupX = .imageMatch ∧
    (processGroup "" "" masterRecX [imgDupX]).1 = [imgDupX] := by
  refine ⟨by decide, by decide, ?_⟩
  rw [processGroup_eq]
  decide

/-- C1 amended: an image-match member is reported as an unconfirmed image
match but is nevertheless included in the actionable result list; only
the `visited` marking distinguishes it — every path marked visited inside
the report loop belongs to a strict match. -/
theorem findDuplicates_imageMatch_amended (dp mp : String)
    (master : FileMetadata) (dups : List FileMetadata) (d : FileMetadata)
    (hmem : d ∈ dups) (hne : d ≠ master)
    (him : classifyDup dp mp master d = .imageMatch) :
    d ∈ (processGroup dp mp master dups).1 ∧
    ∀ q ∈ (processGroup dp mp master dups).2,
      ∃ d', d' ∈ dups ∧ d' ≠ master ∧
        classifyDup dp mp master d' = .strictMatch ∧ d'.path = q := by
  rw [processGroup_eq]
  constructor
  · exact List.mem_filter.mpr ⟨hmem, by simp [hne, him]⟩
  · intro q hq
    simp only [List.mem_map, List.mem_filter] at hq
    obtain ⟨d', ⟨hd'mem, hd'cond⟩, hd'path⟩ := hq
    simp only [Bool.and_eq_true, decide_eq_true_eq, beq_iff_eq] at hd'cond
    exact ⟨d', hd'mem, hd'cond.1, hd'cond.2, hd'path⟩

/-- Witness for the amended C1 at a concrete group holding one image
match and one strict match. -/
theorem findDuplicates_imageMatch_amended_witness :
    imgDupX ∈ (processGroup "" "" masterRecX [imgDupX, strictDupX]).1 ∧
    ∀ q ∈ (processGroup "" "" masterRecX [imgDupX, strictDupX]).2,
      ∃ d', d' ∈ [imgDupX, strictDupX] ∧ d' ≠ masterRecX ∧
        classifyDup "" "" masterRecX d' = .strictMatch ∧ d'.path = q :=
  findDuplicates_imageMatch_amended "" "" masterRecX [imgDupX, strictDupX]
    imgDupX (by decide) (by decide) (by decide)

/-! ## C8: which load-time events mark the store dirty -/

def goneEnv : ScanEnv :=
  ⟨fun _ => .missing, fun _ => some "h", fun _ => "", fun _ => none, fun s => some s⟩

def goneRec : FileMetadata := ⟨"/gone", 5, "h", "", 0, 0, none⟩

/-- Counterexample to C8 as stated: loading a log whose single record
points at a vanished file performs no re-fingerprint, no index update and
no append, yet returns with the dirty flag set (scanner.go line 128
returns `true` for the missing-file drop), so refreshed paths are not the
only paths that mark the store dirty. -/
theorem readDB_dirty_without_refresh :
    readDB goneEnv "db" [goneRec] = .ok (emptyFH "db") true [] := by
  rfl

/-- C8 amended: a stale record whose file still exists is re-fingerprinted,
replaces the in-memory record and is appended (and reports dirty), but it
is not the only dirtying event: dropping a record for a missing file,
skipping a log entry whose path already carries a fresh loaded record,
and loading an in-sync record that overwrites an earlier log entry for
the same path all report dirty as well. -/
theorem readDB_dirty_events (env : ScanEnv) (fh : FileHashes)
    (record : FileMetadata) :
    (∀ f newRec, env.stat record.path = .found f →
      (∀ existing, fh.files record.path = some existing →
        checkFileDidNotChange f existing = false) →
      checkFileDidNotChange f record = false →
      parseFileMetadata env record.path f = some newRec →
      readDBRecord env fh record =
        .ok true (replaceLatestRecord fh newRec).2
          (addFileToDB (replaceLatestRecord fh newRec).2 newRec)) ∧
    (env.stat record.path = .missing → readDBRecord env fh record = .ok true fh []) ∧
    (∀ f existing, env.stat record.path = .found f →
      fh.files record.path = some existing →
      checkFileDidNotChange f existing = true →
      readDBRecord env fh record = .ok true fh []) ∧
    (∀ f old, env.stat record.path = .found f →
      fh.files record.path = some old →
      checkFileDidNotChange f old = false →
      checkFileDidNotChange f record = true →
      readDBRecord env fh record =
        .ok true (addRecord (removeRecord fh old) record) []) := by
  refine ⟨?_, ?_, ?_, ?_⟩
  · intro f newRec hstat hnofresh hstale hparse
    cases hfiles : fh.files record.path with
    | none =>
      simp [readDBRecord, readDBRecordStale, hstat, hfiles, hstale, hparse]
    | some existing =>
      have hx := hnofresh existing hfiles
      simp [readDBRecord, readDBRecordStale, hstat, hfiles, hx, hstale, hparse]
  · intro hstat
    simp [readDBRecord, hstat]
  · intro f existing hstat hfiles hfresh
    simp [readDBRecord, hstat, hfiles, hfresh]
  · intro f old hstat hfiles hstaleold hsync
    simp [readDBRecord, readDBRecordStale, replaceLatestRecord, hstat, hfiles,
      hstaleold, hsync]

def staleEnv : ScanEnv :=
  ⟨fun _ => .found ⟨false, 10, 1, 2⟩, fun _ => some "hh", fun _ => "",
    fun _ => none, fun s => some s⟩

def staleRec : FileMetadata := ⟨"/s", 5, "hold", "", 1, 2, none⟩

def refreshedRec : FileMetadata := ⟨"/s", 10, "hh", "", 1, 2, none⟩

/-- Witness for the amended C8: a concrete stale record is refreshed,
upserted and appended, and a concrete missing-file record dirties without
any change. -/
theorem readDB_dirty_events_witness :
    readDBRecord staleEnv (emptyFH "db") staleRec =
      .ok true (replaceLatestRecord (emptyFH "db") refreshedRec).2
        (addFileToDB (replaceLatestRecord (emptyFH "db") refreshedRec).2
          refreshedRec) ∧
    readDBRecord goneEnv (emptyFH "db") goneRec = .ok true (emptyFH "db") [] := by
  constructor
  · exact (readDB_dirty_events staleEnv (emptyFH "db") staleRec).1
      ⟨false, 10, 1, 2⟩ refreshedRec rfl
      (by intro existing h; simp [emptyFH] at h) (by decide) rfl
  · exact (readDB_dirty_events goneEnv (emptyFH "db") goneRec).2.1 rfl

/-! ## C10: an error stops the loop at the first failing record, no rollback -/

/-- C10: whenever the move loop returns an error, the processed list
splits into a successfully processed prefix, the single failing record,
and an untouched tail; the returned state is exactly the state the
failing step left (nothing done for the prefix — renames and record
removals — is undone), and the returned `moved` flag is exactly the flag
the successful prefix accumulated. -/
theorem moveDuplicates_no_rollback (env : MoveEnv) (mt rp : String) (a : Bool) :
    ∀ (l : List FileMetadata) (fs : FS) (fh : FileHashes) (m : Bool)
      (out : MoveOut) (e : MoveErr),
      runMove env mt rp a fs fh m l = out → out.errRes = some e →
      ∃ pre p rest fs1 fh1,
        l = pre ++ p :: rest ∧
        runMove env mt rp a fs fh m pre = ⟨out.moved, fs1, fh1, none⟩ ∧
        stepMove env mt rp a fs1 fh1 p = .fail out.fs out.fh e := by
  intro l
  induction l with
  | nil =>
    intro fs fh m out e hrun herr
    have : out = ⟨m, fs, fh, none⟩ := by simpa [runMove] using hrun.symm
    rw [this] at herr
    simp at herr
  | cons p rest ih =>
    intro fs fh m out e hrun herr
    cases hstep : stepMove env mt rp a fs fh p with
    | fail fs1 fh1 e1 =>
      have hout : out = ⟨m, fs1, fh1, some e1⟩ := by
        rw [← hrun]; simp [runMove, hstep]
      have he1 : e1 = e := by
        rw [hout] at herr; simpa using herr
      refine ⟨[], p, rest, fs, fh, rfl, ?_, ?_⟩
      · simp [runMove, hout]
      · rw [hout, ← he1, hstep]
    | cont fs1 fh1 mv =>
      have hrun2 : runMove env mt rp a fs1 fh1 (m || mv) rest = out := by
        rw [← hrun]; simp [runMove, hstep]
      obtain ⟨pre, q, rest2, fs2, fh2, hsplit, hpre, hfail⟩ :=
        ih fs1 fh1 (m || mv) out e hrun2 herr
      refine ⟨p :: pre, q, rest2, fs2, fh2, by simp [hsplit], ?_, hfail⟩
      simp [runMove, hstep, hpre]

def sampleFsSrc : FS := fun q =>
  if q = "/a/x.jpg" then .found ⟨false, 100, 5, 10⟩ else .missing

def renameFailEnv : MoveEnv :=
  ⟨fun s => some s, fun _ t => some t, fun _ => "", fun s => s, fun _ => ".", "/",
    fun _ => .ok, fun _ _ => true⟩

/-- Witness for C10: a concrete run whose only record fails at the rename
step decomposes as the theorem states. -/
theorem moveDuplicates_no_rollback_witness :
    ∃ pre p rest fs1 fh1,
      [sampleRec] = pre ++ p :: rest ∧
      runMove renameFailEnv "/dst" "" true sampleFsSrc (emptyFH "db") false pre =
        ⟨(runMove renameFailEnv "/dst" "" true sampleFsSrc (emptyFH "db") false
            [sampleRec]).moved, fs1, fh1, none⟩ ∧
      stepMove renameFailEnv "/dst" "" true fs1 fh1 p =
        .fail (runMove renameFailEnv "/dst" "" true sampleFsSrc (emptyFH "db")
            false [sampleRec]).fs
          (runMove renameFailEnv "/dst" "" true sampleFsSrc (emptyFH "db")
            false [sampleRec]).fh .renameErr :=
  moveDuplicates_no_rollback renameFailEnv "/dst" "" true [sampleRec]
    sampleFsSrc (emptyFH "db") false _ .renameErr rfl (by rfl)

/-! ## C5: digest bucket consistency -/

lemma addRecord_files_eq (fh : FileHashes) (rec : FileMetadata) (p : String) :
    (addRecord fh rec).files p = if p = rec.path then some rec else fh.files p := by
  unfold addRecord
  by_cases hsz : 0 < rec.size <;> simp [hsz]

lemma addRecord_hashes_eq (fh : FileHashes) (rec : FileMetadata) (d : String) :
    (addRecord fh rec).hashes d =
      if 0 < rec.size then
        if 0 < rec.imageHash.length then
          if d = rec.imageHash then
            (if rec.imageHash = rec.fileHash then fh.hashes rec.fileHash ++ [rec]
             else fh.hashes rec.imageHash) ++ [rec]
          else if d = rec.fileHash then fh.hashes rec.fileHash ++ [rec]
          else fh.hashes d
        else
          if d = rec.fileHash then fh.hashes rec.fileHash ++ [rec] else fh.hashes d
      else fh.hashes d := by
  unfold addRecord
  by_cases hsz : 0 < rec.size <;> by_cases himg : 0 < rec.imageHash.length <;>
    simp [hsz, himg]

lemma removeRecord_files_eq (fh : FileHashes) (rec : FileMetadata) (p : String) :
    (removeRecord fh rec).files p = if p = rec.path then none else fh.files p := rfl

lemma removeRecord_hashes_eq (fh : FileHashes) (rec : FileMetadata) (d : String) :
    (removeRecord fh rec).hashes d =
      if 0 < rec.imageHash.length then
        if d = rec.imageHash then
          deleteRecord
            (if rec.imageHash = rec.fileHash then
               deleteRecord (fh.hashes rec.fileHash) rec
             else fh.hashes rec.imageHash) rec
        else if d = rec.fileHash then deleteRecord (fh.hashes rec.fileHash) rec
        else fh.hashes d
      else
        if d = rec.fileHash then deleteRecord (fh.hashes rec.fileHash) rec
        else fh.hashes d := by
  unfold removeRecord
  by_cases himg : 0 < rec.imageHash.length <;> simp [himg]

lemma mem_deleteRecord_of_path_ne {l : List FileMetadata} {rec x : FileMetadata}
    (hx : x ∈ l) (hne : x.path ≠ rec.path) : x ∈ deleteRecord l rec := by
  induction l with
  | nil => simp at hx
  | cons y ys ih =>
    rcases List.mem_cons.mp hx with hxy | hxs
    · subst hxy
      unfold deleteRecord
      rw [if_neg hne]
      exact List.mem_cons_self _ _
    · unfold deleteRecord
      by_cases hy : y.path = rec.path
      · rw [if_pos hy]; exact hxs
      · rw [if_neg hy]; exact List.mem_cons_of_mem _ (ih hxs)

lemma mem_of_mem_deleteRecord {l : List FileMetadata} {rec x : FileMetadata}
    (hx : x ∈ deleteRecord l rec) : x ∈ l := by
  induction l with
  | nil => simp [deleteRecord] at hx
  | cons y ys ih =>
    unfold deleteRecord at hx
    by_cases hy : y.path = rec.path
    · rw [if_pos hy] at hx; exact List.mem_cons_of_mem _ hx
    · rw [if_neg hy] at hx
      rcases List.mem_cons.mp hx with hxy | hxs
      · exact hxy ▸ List.mem_cons_self _ _
      · exact List.mem_cons_of_mem _ (ih hxs)

lemma not_mem_deleteRecord_of_countP_le_one {l : List FileMetadata}
    {rec : FileMetadata}
    (hc : l.countP (fun x => x.path == rec.path) ≤ 1) :
    ∀ x : FileMetadata, x.path = rec.path → x ∉ deleteRecord l rec := by
  induction l with
  | nil => intro x _ hx; simp [deleteRecord] at hx
  | cons y ys ih =>
    intro x hxp hx
    by_cases hy : y.path = rec.path
    · unfold deleteRecord at hx
      rw [if_pos hy] at hx
      have hcnt : ys.countP (fun x => x.path == rec.path) = 0 := by
        rw [List.countP_cons_of_pos _ _ (by simpa using hy)] at hc
        omega
      have := List.countP_eq_zero.mp hcnt x hx
      simp [hxp] at this
    · unfold deleteRecord at hx
      rw [if_neg hy] at hx
      rcases List.mem_cons.mp hx with hxy | hxs
      · exact hy (hxy ▸ hxp)
      · have hc' : ys.countP (fun x => x.path == rec.path) ≤ 1 := by
          rw [List.countP_cons_of_neg _ _ (by simpa using hy)] at hc
          exact hc
        exact ih hc' x hxp hxs

/-- StoreInv is the bucket-consistency invariant of the store: primary
entries carry their own key as path; every primary record of positive
size sits in its content-hash bucket and, when it has an image hash, in
that bucket too; and every bucket entry has positive size. -/
def StoreInv (fh : FileHashes) : Prop :=
  (∀ p r, fh.files p = some r → r.path = p) ∧
  (∀ p r, fh.files p = some r → 0 < r.size →
    r ∈ fh.hashes r.fileHash ∧
    (0 < r.imageHash.length → r ∈ fh.hashes r.imageHash)) ∧
  (∀ d r, r ∈ fh.hashes d → 0 < r.size)

lemma addRecord_hashes_mono (fh : FileHashes) (rec : FileMetadata) (d : String)
    (x : FileMetadata) (hx : x ∈ fh.hashes d) :
    x ∈ (addRecord fh rec).hashes d := by
  rw [addRecord_hashes_eq]
  split_ifs with h1 h2 h3 h4 h5 h6 <;>
    simp_all [List.mem_append]

lemma addRecord_hashes_elem (fh : FileHashes) (rec : FileMetadata) (d : String)
    (x : FileMetadata) (hx : x ∈ (addRecord fh rec).hashes d) :
    x ∈ fh.hashes d ∨ (x = rec ∧ 0 < rec.size) := by
  rw [addRecord_hashes_eq] at hx
  split_ifs at hx with h1 h2 h3 h4 h5 h6 <;>
    simp_all [List.mem_append]

lemma addRecord_self_mem (fh : FileHashes) (rec : FileMetadata)
    (hsz : 0 < rec.size) :
    rec ∈ (addRecord fh rec).hashes rec.fileHash ∧
    (0 < rec.imageHash.length → rec ∈ (addRecord fh rec).hashes rec.imageHash) := by
  constructor
  · rw [addRecord_hashes_eq, if_pos hsz]
    split_ifs <;>
      first
        | exact List.mem_append_right _ (List.mem_singleton_self _)
        | exact absurd rfl ‹_›
  · intro himg
    rw [addRecord_hashes_eq, if_pos hsz, if_pos himg]
    split_ifs <;>
      first
        | exact List.mem_append_right _ (List.mem_singleton_self _)
        | exact absurd rfl ‹_›

lemma addRecord_preserves_inv (fh : FileHashes) (rec : FileMetadata)
    (hinv : StoreInv fh) : StoreInv (addRecord fh rec) := by
  obtain ⟨h1, h2, h3⟩ := hinv
  refine ⟨?_, ?_, ?_⟩
  · intro p r hr
    rw [addRecord_files_eq] at hr
    by_cases hp : p = rec.path
    · rw [if_pos hp] at hr
      cases hr
      exact hp.symm
    · rw [if_neg hp] at hr
      exact h1 p r hr
  · intro p r hr hrsz
    rw [addRecord_files_eq] at hr
    by_cases hp : p = rec.path
    · rw [if_pos hp] at hr
      cases hr
      exact addRecord_self_mem fh _ hrsz
    · rw [if_neg hp] at hr
      obtain ⟨hm1, hm2⟩ := h2 p r hr hrsz
      exact ⟨addRecord_hashes_mono fh rec _ r hm1,
        fun h => addRecord_hashes_mono fh rec _ r (hm2 h)⟩
  · intro d r hr
    rcases addRecord_hashes_elem fh rec d r hr with h | ⟨heq, hsz⟩
    · exact h3 d r h
    · exact heq ▸ hsz

lemma removeRecord_mem_of_path_ne (fh : FileHashes) (rec : FileMetadata)
    (d : String) (x : FileMetadata) (hx : x ∈ fh.hashes d)
    (hne : x.path ≠ rec.path) : x ∈ (removeRecord fh rec).hashes d := by
  rw [removeRecord_hashes_eq]
  split_ifs with h1 h2 h3 h4 h5
  · exact mem_deleteRecord_of_path_ne
      (mem_deleteRecord_of_path_ne (h3 ▸ h2 ▸ hx) hne) hne
  · exact mem_deleteRecord_of_path_ne (h2 ▸ hx) hne
  · exact mem_deleteRecord_of_path_ne (h4 ▸ hx) hne
  · exact hx
  · exact mem_deleteRecord_of_path_ne (h5 ▸ hx) hne
  · exact hx

lemma removeRecord_hashes_sub (fh : FileHashes) (rec : FileMetadata)
    (d : String) (x : FileMetadata) (hx : x ∈ (removeRecord fh rec).hashes d) :
    x ∈ fh.hashes d := by
  rw [removeRecord_hashes_eq] at hx
  split_ifs at hx with h1 h2 h3 h4 h5
  · rw [h2, h3]
    exact mem_of_mem_deleteRecord (mem_of_mem_deleteRecord hx)
  · rw [h2]
    exact mem_of_mem_deleteRecord hx
  · rw [h4]
    exact mem_of_mem_deleteRecord hx
  · exact hx
  · rw [h5]
    exact mem_of_mem_deleteRecord hx
  · exact hx

lemma removeRecord_preserves_inv (fh : FileHashes) (rec : FileMetadata)
    (hinv : StoreInv fh) : StoreInv (removeRecord fh rec) := by
  obtain ⟨h1, h2, h3⟩ := hinv
  refine ⟨?_, ?_, ?_⟩
  · intro p r hr
    rw [removeRecord_files_eq] at hr
    by_cases hp : p = rec.path
    · rw [if_pos hp] at hr; cases hr
    · rw [if_neg hp] at hr; exact h1 p r hr
  · intro p r hr hrsz
    rw [removeRecord_files_eq] at hr
    by_cases hp : p = rec.path
    · rw [if_pos hp] at hr; cases hr
    · rw [if_neg hp] at hr
      have hrp : r.path = p := h1 p r hr
      have hrne : r.path ≠ rec.path := fun h => hp (hrp ▸ h)
      obtain ⟨hm1, hm2⟩ := h2 p r hr hrsz
      exact ⟨removeRecord_mem_of_path_ne fh rec _ r hm1 hrne,
        fun h => removeRecord_mem_of_path_ne fh rec _ r (hm2 h) hrne⟩
  · intro d r hr
    exact h3 d r (removeRecord_hashes_sub fh rec d r hr)

lemma applyOps_preserves_inv (ops : List StoreOp) :
    ∀ fh : FileHashes, StoreInv fh → StoreInv (applyOps fh ops) := by
  induction ops with
  | nil => exact fun fh h => h
  | cons op rest ih =>
    intro fh h
    cases op with
    | add r => exact ih _ (addRecord_preserves_inv fh r h)
    | remove r => exact ih _ (removeRecord_preserves_inv fh r h)

lemma emptyFH_inv (db : String) : StoreInv (emptyFH db) := by
  refine ⟨?_, ?_, ?_⟩ <;> intro p r hr <;> simp [emptyFH] at hr

lemma removeRecord_not_mem_self (fh : FileHashes) (rec : FileMetadata)
    (hcf : (fh.hashes rec.fileHash).countP (fun x => x.path == rec.path) ≤ 1)
    (hci : 0 < rec.imageHash.length →
      (fh.hashes rec.imageHash).countP (fun x => x.path == rec.path) ≤ 1) :
    rec ∉ (removeRecord fh rec).hashes rec.fileHash ∧
    (0 < rec.imageHash.length →
      rec ∉ (removeRecord fh rec).hashes rec.imageHash) := by
  have hnotf : rec ∉ deleteRecord (fh.hashes rec.fileHash) rec :=
    not_mem_deleteRecord_of_countP_le_one hcf rec rfl
  constructor
  · rw [removeRecord_hashes_eq]
    split_ifs with h1 h2 h3 h4 h5
    · intro hmem
      exact hnotf (mem_of_mem_deleteRecord hmem)
    · exact absurd h2.symm h3
    · exact hnotf
    · exact absurd rfl h4
    · exact hnotf
    · exact absurd rfl h5
  · intro himg
    have hnoti : rec ∉ deleteRecord (fh.hashes rec.imageHash) rec :=
      not_mem_deleteRecord_of_countP_le_one (hci himg) rec rfl
    rw [removeRecord_hashes_eq, if_pos himg,
      if_pos (rfl : rec.imageHash = rec.imageHash)]
    by_cases hfi : rec.imageHash = rec.fileHash
    · rw [if_pos hfi]
      intro hmem
      exact hnotf (mem_of_mem_deleteRecord hmem)
    · rw [if_neg hfi]
      exact hnoti

/-- C5 amended: after any sequence of `addRecord` / `removeRecord` calls
from the empty store, every primary-index record of positive size sits in
its content-hash bucket (and in its image-hash bucket when it has one)
and every bucket entry has positive size (zero-size records are never
indexed); `removeRecord` always deletes the path from the primary index,
and deletes the record from both of its buckets provided each bucket
holds at most one entry bearing the record's path (in general it removes
only the first such entry from each bucket). -/
theorem store_digest_consistency :
    (∀ (db : String) (ops : List StoreOp), StoreInv (applyOps (emptyFH db) ops)) ∧
    (∀ (fh : FileHashes) (rec : FileMetadata),
      (fh.hashes rec.fileHash).countP (fun x => x.path == rec.path) ≤ 1 →
      (0 < rec.imageHash.length →
        (fh.hashes rec.imageHash).countP (fun x => x.path == rec.path) ≤ 1) →
      (removeRecord fh rec).files rec.path = none ∧
      rec ∉ (removeRecord fh rec).hashes rec.fileHash ∧
      (0 < rec.imageHash.length →
        rec ∉ (removeRecord fh rec).hashes rec.imageHash)) := by
  constructor
  · exact fun db ops => applyOps_preserves_inv ops _ (emptyFH_inv db)
  · intro fh rec hcf hci
    refine ⟨?_, (removeRecord_not_mem_self fh rec hcf hci).1,
      (removeRecord_not_mem_self fh rec hcf hci).2⟩
    rw [removeRecord_files_eq, if_pos rfl]

def dupRec1 : FileMetadata := ⟨"/p", 1, "h", "", 0, 0, none⟩

def dupRec2 : FileMetadata := ⟨"/p", 2, "h", "", 0, 0, none⟩

/-- Counterexample to C5 as stated: adding two records with the same path
and content hash and then removing the second deletes the *first*
path-matching bucket entry (database.go, deleteRecord matches by path),
so the removed record itself is still present in its content-hash bucket
after `removeRecord`. -/
theorem removeRecord_leaves_removed_record :
    (applyOps (emptyFH "db")
        [.add dupRec1, .add dupRec2, .remove dupRec2]).files "/p" = none ∧
    dupRec2 ∈ (applyOps (emptyFH "db")
        [.add dupRec1, .add dupRec2, .remove dupRec2]).hashes "h" := by
  exact ⟨rfl, by decide⟩

/-- Witness for the amended C5 at a concrete store. -/
theorem store_digest_consistency_witness :
    dupRec1 ∈ (applyOps (emptyFH "db") [.add dupRec1]).hashes "h" ∧
    dupRec1 ∉ (removeRecord (applyOps (emptyFH "db") [.add dupRec1])
        dupRec1).hashes "h" := by
  constructor
  · exact ((store_digest_consistency.1 "db" [.add dupRec1]).2.1 "/p" dupRec1
      rfl (by decide)).1
  · exact (store_digest_consistency.2 (applyOps (emptyFH "db") [.add dupRec1])
      dupRec1 (by decide) (fun h => absurd h (by decide))).2.1

/-! ## C3: the master tie-break chain -/

/-- ruleMasterScope renders spec rule 1: prefer the candidate located
inside the masters-scope over one that is not; `none` = tie, fall
through. -/
def ruleMasterScope (masterPfx : String) (a b : FileMetadata) :
    Option FileMetadata :=
  if hasPfx a.path masterPfx ∧ ¬ hasPfx b.path masterPfx then some a
  else if hasPfx b.path masterPfx ∧ ¬ hasPfx a.path masterPfx then some b
  else none

/-- ruleDupScope renders spec rule 2: prefer the candidate located
outside the duplicates-scope over one inside it. -/
def ruleDupScope (duplicatePfx : String) (a b : FileMetadata) :
    Option FileMetadata :=
  if ¬ hasPfx a.path duplicatePfx ∧ hasPfx b.path duplicatePfx then some a
  else if ¬ hasPfx b.path duplicatePfx ∧ hasPfx a.path duplicatePfx then some b
  else none

/-- ruleSize renders spec rule 3: prefer strictly larger file size. -/
def ruleSize (a b : FileMetadata) : Option FileMetadata :=
  if a.size > b.size then some a
  else if b.size > a.size then some b
  else none

/-- ruleCaptureDate renders spec rule 4 as the claim states it: the
earlier non-empty capture date wins (a single non-empty date counts as
the earliest non-empty one, so a dated file beats an undated one). -/
def ruleCaptureDate (a b : FileMetadata) : Option FileMetadata :=
  match a.dateShot, b.dateShot with
  | none, none => none
  | some _, none => some a
  | none, some _ => some b
  | some x, some y =>
    if x < y then some a else if y < x then some b else none

/-- ruleModified renders spec rule 5: prefer the earlier modification
time. -/
def ruleModified (a b : FileMetadata) : Option FileMetadata :=
  if a.modified < b.modified then some a
  else if b.modified < a.modified then some b
  else none

/-- ruleCreated renders spec rule 6: prefer the earlier creation time. -/
def ruleCreated (a b : FileMetadata) : Option FileMetadata :=
  if a.created < b.created then some a
  else if b.created < a.created then some b
  else none

/-- chainOf applies tie-break rules in order; each later rule applies
only when all earlier rules tie, and when every rule ties the incumbent
(first-encountered) record is kept. -/
def chainOf (rules : List (FileMetadata → FileMetadata → Option FileMetadata))
    (selected candidate : FileMetadata) : FileMetadata :=
  match rules with
  | [] => selected
  | r :: rest =>
    match r selected candidate with
    | some w => w
    | none => chainOf rest selected candidate

/-- specPickStep is one pairwise application of the claim's tie-break
chain, rules 1-6 in order, written from the spec's words. -/
def specPickStep (duplicatePfx masterPfx : String)
    (selected candidate : FileMetadata) : FileMetadata :=
  chainOf
    [ruleMasterScope masterPfx, ruleDupScope duplicatePfx, ruleSize,
      ruleCaptureDate, ruleModified, ruleCreated]
    selected candidate

/-- specPickMaster folds the claim's chain over the group, in the shape
of `pickMaster`. -/
def specPickMaster (duplicatePfx masterPfx : String)
    (candidates : List FileMetadata) : Option FileMetadata :=
  candidates.foldl
    (fun acc candidate =>
      match acc with
      | none => some candidate
      | some selected =>
        some (specPickStep duplicatePfx masterPfx selected candidate))
    none

def specRecA : FileMetadata := ⟨"/x/a", 1, "h1", "", 0, 10, some 100⟩

def specRecB : FileMetadata := ⟨"/x/b", 1, "h1", "", 0, 5, none⟩

/-- Counterexample to C3 as stated: with empty scopes and equal sizes,
the incumbent has a capture date and the candidate has none; the claim's
rule 4 ("the earlier non-empty capture date wins") selects the dated
record, but the source's guard skips rule 4 whenever the *candidate* has
no capture date and falls through to modification time, selecting the
undated record with the earlier modification time. -/
theorem pickMaster_chain_counterexample :
    pickStep "" "" specRecA specRecB = specRecB ∧
    specPickStep "" "" specRecA specRecB = specRecA ∧
    pickMaster "" "" [specRecA, specRecB] ≠
      specPickMaster "" "" [specRecA, specRecB] := by
  decide

/-- ruleCaptureDateAmended is spec rule 4 amended to what the source
implements: a candidate with a non-empty capture date wins when the
incumbent's date is empty or later (and loses when the incumbent's date
is earlier); a candidate with an empty capture date never decides at this
rule, falling through to modification time even when the incumbent has a
date.  The first argument is the incumbent. -/
def ruleCaptureDateAmended (selected candidate : FileMetadata) :
    Option FileMetadata :=
  match candidate.dateShot, selected.dateShot with
  | some c, some s =>
    if c < s then some candidate else if s < c then some selected else none
  | some _, none => some candidate
  | none, _ => none

/-- amendedPickStep is the claim's chain with rule 4 replaced by the
amended, source-accurate rule. -/
def amendedPickStep (duplicatePfx masterPfx : String)
    (selected candidate : FileMetadata) : FileMetadata :=
  chainOf
    [ruleMasterScope masterPfx, ruleDupScope duplicatePfx, ruleSize,
      ruleCaptureDateAmended, ruleModified, ruleCreated]
    selected candidate

/-- C3 amended: the selection loop of `pickMaster` follows the tie-break
chain with rules 1-3, 5, 6 exactly as the claim states them and rule 4 in
the amended asymmetric form; each later rule applies only when all
earlier rules tie, and a full tie keeps the incumbent. -/
lemma chainOf_cons_some {r : FileMetadata → FileMetadata → Option FileMetadata}
    {rest : List (FileMetadata → FileMetadata → Option FileMetadata)}
    {s c w : FileMetadata} (h : r s c = some w) :
    chainOf (r :: rest) s c = w := by
  simp [chainOf, h]

lemma chainOf_cons_none {r : FileMetadata → FileMetadata → Option FileMetadata}
    {rest : List (FileMetadata → FileMetadata → Option FileMetadata)}
    {s c : FileMetadata} (h : r s c = none) :
    chainOf (r :: rest) s c = chainOf rest s c := by
  simp [chainOf, h]

lemma createdTail_eq (s c : FileMetadata) :
    (if c.created ≠ s.created then (if c.created < s.created then c else s)
     else s) = chainOf [ruleCreated] s c := by
  rcases lt_trichotomy c.created s.created with h | h | h
  · rw [chainOf_cons_some
      (show ruleCreated s c = some c by
        unfold ruleCreated; rw [if_neg (by omega), if_pos h])]
    rw [if_pos (by omega : c.created ≠ s.created), if_pos h]
  · rw [chainOf_cons_none
      (show ruleCreated s c = none by
        unfold ruleCreated; rw [if_neg (by omega), if_neg (by omega)])]
    rw [if_neg (by omega : ¬ c.created ≠ s.created)]
    rfl
  · rw [chainOf_cons_some
      (show ruleCreated s c = some s by
        unfold ruleCreated; rw [if_pos h])]
    rw [if_pos (by omega : c.created ≠ s.created), if_neg (by omega)]

lemma modTail_eq (s c : FileMetadata) :
    (if c.modified ≠ s.modified then (if c.modified < s.modified then c else s)
     else if c.created ≠ s.created then (if c.created < s.created then c else s)
     else s) = chainOf [ruleModified, ruleCreated] s c := by
  rcases lt_trichotomy c.modified s.modified with h | h | h
  · rw [chainOf_cons_some
      (show ruleModified s c = some c by
        unfold ruleModified; rw [if_neg (by omega), if_pos h])]
    rw [if_pos (by omega : c.modified ≠ s.modified), if_pos h]
  · rw [chainOf_cons_none
      (show ruleModified s c = none by
        unfold ruleModified; rw [if_neg (by omega), if_neg (by omega)])]
    rw [if_neg (by omega : ¬ c.modified ≠ s.modified)]
    exact createdTail_eq s c
  · rw [chainOf_cons_some
      (show ruleModified s c = some s by
        unfold ruleModified; rw [if_pos h])]
    rw [if_pos (by omega : c.modified ≠ s.modified), if_neg (by omega)]

lemma pickTail_eq (s c : FileMetadata) :
    (if c.size ≠ s.size then (if c.size > s.size then c else s)
     else if c.dateShot.isSome ∧
         (s.dateShot.isNone ∨ c.dateShot.getD 0 ≠ s.dateShot.getD 0) then
       (if s.dateShot.isNone ∨ c.dateShot.getD 0 < s.dateShot.getD 0 then c else s)
     else if c.modified ≠ s.modified then (if c.modified < s.modified then c else s)
     else if c.created ≠ s.created then (if c.created < s.created then c else s)
     else s) =
    chainOf [ruleSize, ruleCaptureDateAmended, ruleModified, ruleCreated] s c := by
  rcases lt_trichotomy c.size s.size with hsz | hsz | hsz
  · rw [chainOf_cons_some
      (show ruleSize s c = some s by unfold ruleSize; rw [if_pos hsz])]
    rw [if_pos (by omega : c.size ≠ s.size), if_neg (by omega)]
  · rw [chainOf_cons_none
      (show ruleSize s c = none by
        unfold ruleSize; rw [if_neg (by omega), if_neg (by omega)])]
    rw [if_neg (by omega : ¬ c.size ≠ s.size)]
    cases hds : s.dateShot with
    | none =>
      cases hdc : c.dateShot with
      | none =>
        rw [chainOf_cons_none
          (show ruleCaptureDateAmended s c = none by
            unfold ruleCaptureDateAmended; rw [hdc])]
        rw [if_neg (by simp [hdc])]
        exact modTail_eq s c
      | some cv =>
        rw [chainOf_cons_some
          (show ruleCaptureDateAmended s c = some c by
            unfold ruleCaptureDateAmended; rw [hdc, hds])]
        rw [if_pos (by simp [hdc, hds]), if_pos (by simp [hds])]
    | some sv =>
      cases hdc : c.dateShot with
      | none =>
        rw [chainOf_cons_none
          (show ruleCaptureDateAmended s c = none by
            unfold ruleCaptureDateAmended; rw [hdc])]
        rw [if_neg (by simp [hdc])]
        exact modTail_eq s c
      | some cv =>
        rcases lt_trichotomy cv sv with hv | hv | hv
        · rw [chainOf_cons_some
            (show ruleCaptureDateAmended s c = some c by
              unfold ruleCaptureDateAmended; rw [hdc, hds]; dsimp only
              rw [if_pos hv])]
          rw [if_pos (by simp [hdc, hds]; omega), if_pos (by simp [hds, hdc]; omega)]
        · rw [chainOf_cons_none
            (show ruleCaptureDateAmended s c = none by
              unfold ruleCaptureDateAmended
              rw [hdc, hds]; dsimp only
              rw [if_neg (by omega), if_neg (by omega)])]
          rw [if_neg (by simp [hdc, hds]; omega)]
          exact modTail_eq s c
        · rw [chainOf_cons_some
            (show ruleCaptureDateAmended s c = some s by
              unfold ruleCaptureDateAmended; rw [hdc, hds]; dsimp only
              rw [if_neg (by omega), if_pos hv])]
          rw [if_pos (by simp [hdc, hds]; omega), if_neg (by simp [hds, hdc]; omega)]
  · rw [chainOf_cons_some
      (show ruleSize s c = some c by
        unfold ruleSize; rw [if_neg (by omega), if_pos hsz])]
    rw [if_pos (by omega : c.size ≠ s.size), if_pos hsz]

/-- C3 amended: every pairwise selection of `pickMaster` follows the
tie-break chain with rules 1-3, 5 and 6 exactly as the claim states them
and rule 4 in the amended, source-accurate asymmetric form; each later
rule applies only when all earlier rules tie, and a full tie keeps the
incumbent (first-encountered) record. -/
theorem pickStep_follows_amended_chain (dp mp : String) (s c : FileMetadata) :
    pickStep dp mp s c = amendedPickStep dp mp s c := by
  unfold pickStep amendedPickStep
  cases hcm : hasPfx c.path mp <;> cases hsm : hasPfx s.path mp
  case false.true =>
    rw [chainOf_cons_some
      (show ruleMasterScope mp s c = some s by simp [ruleMasterScope, hcm, hsm])]
    simp
  case true.false =>
    rw [chainOf_cons_some
      (show ruleMasterScope mp s c = some c by simp [ruleMasterScope, hcm, hsm])]
    simp
  all_goals
    (rw [chainOf_cons_none
      (show ruleMasterScope mp s c = none by simp [ruleMasterScope, hcm, hsm])]
     first
       | rw [if_neg (show ¬((false : Bool) ≠ false) by decide)]
       | rw [if_neg (show ¬((true : Bool) ≠ true) by decide)]
     cases hcd : hasPfx c.path dp <;> cases hsd : hasPfx s.path dp
     case false.true =>
       rw [chainOf_cons_some
         (show ruleDupScope dp s c = some c by simp [ruleDupScope, hcd, hsd])]
       simp
     case true.false =>
       rw [chainOf_cons_some
         (show ruleDupScope dp s c = some s by simp [ruleDupScope, hcd, hsd])]
       simp
     all_goals
       (rw [chainOf_cons_none
         (show ruleDupScope dp s c = none by simp [ruleDupScope, hcd, hsd])]
        first
          | rw [if_neg (show ¬((false : Bool) ≠ false) by decide)]
          | rw [if_neg (show ¬((true : Bool) ≠ true) by decide)]
        exact pickTail_eq s c))

/-! ## C4: order independence of pickMaster -/

/-- Counterexample to C4 as stated: the two iteration orders of the same
two-candidate group (equal sizes, no scopes; one record carries a capture
date, the other does not) select different masters, because the capture
date rule of the source is asymmetric in the incumbent and the
candidate. -/
theorem pickMaster_order_counterexample :
    [specRecA, specRecB].Perm [specRecB, specRecA] ∧
    pickMaster "" "" [specRecA, specRecB] ≠
      pickMaster "" "" [specRecB, specRecA] := by
  exact ⟨List.Perm.swap _ _ _, by decide⟩
abbrev MasterKey := Bool ×ₗ (Bool ×ₗ (ℤ ×ₗ (ℤ ×ₗ (ℤ ×ₗ ℤ))))

def masterKey (dp mp : String) (r : FileMetadata) : MasterKey :=
  toLex (!(hasPfx r.path mp),
    toLex (hasPfx r.path dp,
      toLex (-r.size,
        toLex (r.dateShot.getD 0, toLex (r.modified, r.created)))))

lemma pickStep_eq_key (dp mp : String) (s c : FileMetadata)
    (hs : s.dateShot.isSome) (hc : c.dateShot.isSome) :
    pickStep dp mp s c =
      if masterKey dp mp c < masterKey dp mp s then c else s := by
  obtain ⟨sv, hsv⟩ := Option.isSome_iff_exists.mp hs
  obtain ⟨cv, hcv⟩ := Option.isSome_iff_exists.mp hc
  unfold pickStep masterKey
  rw [hsv, hcv]
  cases hcm : hasPfx c.path mp <;> cases hsm : hasPfx s.path mp <;>
    cases hcd : hasPfx c.path dp <;> cases hsd : hasPfx s.path dp <;>
    simp [Prod.Lex.lt_iff, Bool.lt_iff] <;>
    split_ifs <;> first | rfl | omega

lemma pickFold_min (dp mp : String) :
    ∀ (l : List FileMetadata) (a : FileMetadata),
      a.dateShot.isSome = true → (∀ r ∈ l, r.dateShot.isSome = true) →
      ∃ m,
        (l.foldl
            (fun acc candidate =>
              match acc with
              | none => some candidate
              | some selected => some (pickStep dp mp selected candidate))
            (some a)) = some m ∧
        (m = a ∨ m ∈ l) ∧
        masterKey dp mp m ≤ masterKey dp mp a ∧
        ∀ x ∈ l, masterKey dp mp m ≤ masterKey dp mp x := by
  intro l
  induction l with
  | nil =>
    intro a ha _
    exact ⟨a, rfl, .inl rfl, le_refl _, by simp⟩
  | cons x xs ih =>
    intro a ha hxs
    have hx : x.dateShot.isSome = true := hxs x (by simp)
    have hbeq : pickStep dp mp a x =
        if masterKey dp mp x < masterKey dp mp a then x else a :=
      pickStep_eq_key dp mp a x ha hx
    have hbsome : (pickStep dp mp a x).dateShot.isSome = true := by
      rcases pickStep_cases dp mp a x with h | h <;> rw [h]
      · exact ha
      · exact hx
    obtain ⟨m, hm, hmem, hma, hmall⟩ :=
      ih (pickStep dp mp a x) hbsome (fun r hr => hxs r (List.mem_cons_of_mem _ hr))
    have hble : masterKey dp mp (pickStep dp mp a x) ≤ masterKey dp mp a := by
      rw [hbeq]
      split_ifs with h
      · exact le_of_lt h
      · exact le_refl _
    have hblex : masterKey dp mp (pickStep dp mp a x) ≤ masterKey dp mp x := by
      rw [hbeq]
      split_ifs with h
      · exact le_refl _
      · exact not_lt.mp h
    refine ⟨m, by simpa using hm, ?_, le_trans hma hble, ?_⟩
    · rcases hmem with h | h
      · rcases pickStep_cases dp mp a x with hh | hh
        · exact .inl (h.trans hh)
        · exact .inr (by simp [h.trans hh])
      · exact .inr (List.mem_cons_of_mem _ h)
    · intro y hy
      rcases List.mem_cons.mp hy with h | h
      · exact h ▸ le_trans hma hblex
      · exact hmall y h

/-- C4 amended: for a fixed candidate group and fixed scope strings,
`pickMaster` returns the same record for any two iteration orders,
provided every candidate carries a non-empty capture date and no two
candidates agree on all six comparison keys (scope flags, size, capture
date, modification and creation seconds); without these provisos the
counterexample shows order dependence. -/
theorem pickMaster_order_independent_amended (dp mp : String)
    (l1 l2 : List FileMetadata) (hperm : l1.Perm l2)
    (hall : ∀ r ∈ l1, r.dateShot.isSome = true)
    (hdist : l1.Pairwise (fun a b => masterKey dp mp a ≠ masterKey dp mp b)) :
    pickMaster dp mp l1 = pickMaster dp mp l2 := by
  cases l1 with
  | nil =>
    have h2 : l2 = [] := hperm.symm.eq_nil
    rw [h2]
  | cons a as =>
    cases l2 with
    | nil => exact absurd hperm.eq_nil (by simp)
    | cons b bs =>
      obtain ⟨m1, hm1, hmem1, hma1, hall1⟩ :=
        pickFold_min dp mp as a (hall a (by simp))
          (fun r hr => hall r (by simp [hr]))
      obtain ⟨m2, hm2, hmem2, hma2, hall2⟩ :=
        pickFold_min dp mp bs b
          (hperm.mem_iff.mpr (by simp) |> hall b)
          (fun r hr => hall r (hperm.mem_iff.mpr (by simp [hr])))
      have hm1mem : m1 ∈ a :: as := by
        rcases hmem1 with h | h
        · simp [h]
        · exact List.mem_cons_of_mem _ h
      have hm2mem : m2 ∈ b :: bs := by
        rcases hmem2 with h | h
        · simp [h]
        · exact List.mem_cons_of_mem _ h
      have hmin1 : ∀ x ∈ a :: as, masterKey dp mp m1 ≤ masterKey dp mp x := by
        intro x hx
        rcases List.mem_cons.mp hx with h | h
        · exact h ▸ hma1
        · exact hall1 x h
      have hmin2 : ∀ x ∈ b :: bs, masterKey dp mp m2 ≤ masterKey dp mp x := by
        intro x hx
        rcases List.mem_cons.mp hx with h | h
        · exact h ▸ hma2
        · exact hall2 x h
      have hle12 : masterKey dp mp m1 ≤ masterKey dp mp m2 :=
        hmin1 m2 (hperm.mem_iff.mpr hm2mem)
      have hle21 : masterKey dp mp m2 ≤ masterKey dp mp m1 :=
        hmin2 m1 (hperm.mem_iff.mp hm1mem)
      have hkeq : masterKey dp mp m1 = masterKey dp mp m2 :=
        le_antisymm hle12 hle21
      have hsym : Symmetric
          (fun a b : FileMetadata => masterKey dp mp a ≠ masterKey dp mp b) :=
        fun a b h heq => h heq.symm
      have heq : m1 = m2 := by
        by_contra hne
        exact hdist.forall hsym hm1mem (hperm.mem_iff.mpr hm2mem) hne hkeq
      have e1 : pickMaster dp mp (a :: as) = some m1 := by
        simpa [pickMaster] using hm1
      have e2 : pickMaster dp mp (b :: bs) = some m2 := by
        simpa [pickMaster] using hm2
      rw [e1, e2, heq]

def keyRec1 : FileMetadata := ⟨"/a/1.jpg", 1, "h", "", 0, 0, some 1⟩

def keyRec2 : FileMetadata := ⟨"/a/2.jpg", 2, "h", "", 0, 0, some 2⟩

/-- Witness for the amended C4 at a concrete two-element group with
capture dates and distinct keys. -/
theorem pickMaster_order_independent_amended_witness :
    pickMaster "" "" [keyRec1, keyRec2] = pickMaster "" "" [keyRec2, keyRec1] :=
  pickMaster_order_independent_amended "" "" [keyRec1, keyRec2]
    [keyRec2, keyRec1] (List.Perm.swap _ _ _) (by decide) (by decide)
